import Mathlib

/-!
Verification of the lumiere skill-audit scripts.

This file gives a shallow embedding of the core logic of three scripts of the
repository and proves properties of that embedding:

* `skills/atlaspa/openclaw-signet/scripts/signet.py` — content hashing of a
  skill directory tree (`skill_hash`), manifest loading (`load_manifest`) and
  verification (`cmd_verify`).
* `skills/amir-ag/clawhub-skill-scanner/scripts/scan_skill.py` — the per-line
  pattern scanner (`scan_file`), risk score (`risk_score`) and verdict
  (`risk_level`).
* `skills/atlaspa/openclaw-egress/scripts/egress.py` — URL extraction with
  fenced-code exclusion (`in_code_block`, `scan_file_urls`) and URL
  classification (`classify_url`).

Modelling conventions:

* File contents, paths and hashes are `String`s.  SHA-256 is modelled as an
  injective digest: `file_hash` tags the content, and the running composite
  digest of `hashlib.sha256` is modelled as the concatenation of the strings
  fed to `update` (two update streams collide only if they are equal byte
  strings, which models collision-freeness).  `file_hash` never returns the
  empty string, matching the truthiness tests on real hex digests.
* A directory tree is the mutual inductive `FsDir` / `FsEntries`; the order of
  entries in an `FsEntries` list models the file-system iteration order of
  `os.walk`.
* Python regular-expression matching over the rule catalogs is abstracted as
  an explicit matcher argument `rmatch : String → String → Bool` (pattern,
  line); all control flow around the matcher is embedded concretely.
  Literal substring tests (Python `in`) are embedded concretely.
* String primitives used by the scripts (`sorted`, `strip`, `endswith`,
  slicing, `str.lower`) are implemented over `String.data` character lists so
  that every definition evaluates by `decide` / `rfl`.
-/

/-! ## String and list primitives -/

/-- Lexicographic comparison of character lists by code point, the order used
by Python `sorted` on strings. -/
def listCharLe : List Char → List Char → Bool
  | [], _ => true
  | _ :: _, [] => false
  | a :: as, b :: bs =>
    if a.toNat < b.toNat then true
    else if b.toNat < a.toNat then false
    else listCharLe as bs

/-- String comparison: `a <= b` in Python. -/
def strLe (a b : String) : Bool := listCharLe a.data b.data

/-- Test whether `pat` occurs as a contiguous substring of the character list,
the Python `pat in s` operator. -/
def listHasSub (pat : List Char) : List Char → Bool
  | [] => pat == []
  | c :: rest => pat == (c :: rest).take pat.length || listHasSub pat rest

/-- Python substring containment `pat in s`. -/
def strContains (s pat : String) : Bool := listHasSub pat.data s.data

/-- Python `s.endswith(suf)`. -/
def endsWithStr (s suf : String) : Bool :=
  s.data.drop (s.data.length - suf.data.length) == suf.data ∧ suf.data.length ≤ s.data.length

/-- Python slicing `s[:n]`. -/
def takeStr (s : String) (n : Nat) : String := String.mk (s.data.take n)

/-- Python `s.strip()`: remove leading and trailing whitespace. -/
def trimStr (s : String) : String :=
  String.mk (((s.data.dropWhile Char.isWhitespace).reverse.dropWhile Char.isWhitespace).reverse)

/-- Python `s.startswith(p)`. -/
def startsWithStr (s p : String) : Bool := s.data.take p.data.length == p.data

/-- Python `s.lower()` restricted to ASCII, which is all the scripts compare. -/
def lowerChar (c : Char) : Char :=
  if 65 ≤ c.toNat ∧ c.toNat ≤ 90 then Char.ofNat (c.toNat + 32) else c

/-- Lower-case a string (ASCII). -/
def lowerStr (s : String) : String := String.mk (s.data.map lowerChar)

/-- Concatenation of a list of strings, the model of a running SHA-256 update
stream. -/
def strJoin : List String → String
  | [] => ""
  | s :: ss => s ++ strJoin ss

/-- Stable insertion into a sorted list, auxiliary to `sortBy`. -/
def insertBy (le : α → α → Bool) (x : α) : List α → List α
  | [] => [x]
  | y :: ys => if le x y then x :: y :: ys else y :: insertBy le x ys

/-- Stable sort, the model of Python `sorted`. -/
def sortBy (le : α → α → Bool) : List α → List α
  | [] => []
  | x :: xs => insertBy le x (sortBy le xs)

/-- First-match association lookup, the model of `dict.get` for maps whose
keys are distinct. -/
def lookupKV (p : String) : List (String × β) → Option β
  | [] => none
  | (k, v) :: r => if k = p then some v else lookupKV p r

/-- Duplicate removal, the model of building a Python `set` from a list (the
set is subsequently sorted, so which occurrence survives is irrelevant). -/
def dedupStr : List String → List String
  | [] => []
  | x :: xs => if xs.contains x then dedupStr xs else x :: dedupStr xs

/-! ### Lemmas about the primitives -/

theorem insertBy_perm (le : α → α → Bool) (x : α) (l : List α) :
    (insertBy le x l).Perm (x :: l) := by
  induction l with
  | nil => simp [insertBy]
  | cons y ys ih =>
    simp only [insertBy]
    split
    · exact List.Perm.refl _
    · exact (List.Perm.cons y ih).trans (List.Perm.swap x y ys)

theorem sortBy_perm (le : α → α → Bool) (l : List α) : (sortBy le l).Perm l := by
  induction l with
  | nil => exact List.Perm.refl _
  | cons x xs ih =>
    exact (insertBy_perm le x (sortBy le xs)).trans (List.Perm.cons x ih)

theorem mem_sortBy {le : α → α → Bool} {x : α} {l : List α} :
    x ∈ sortBy le l ↔ x ∈ l :=
  (sortBy_perm le l).mem_iff

theorem insertBy_pairwise (le : α → α → Bool)
    (htot : ∀ a b, le a b = true ∨ le b a = true)
    (htrans : ∀ a b c, le a b = true → le b c = true → le a c = true)
    (x : α) (l : List α) (hl : l.Pairwise (fun a b => le a b = true)) :
    (insertBy le x l).Pairwise (fun a b => le a b = true) := by
  induction l with
  | nil => simp [insertBy]
  | cons y ys ih =>
    rcases hl with _ | ⟨hy, hys⟩
    simp only [insertBy]
    split
    case isTrue hxy =>
      constructor
      · intro z hz
        rw [List.mem_cons] at hz
        rcases hz with hz | hz
        · subst hz; exact hxy
        · exact htrans x y z hxy (hy z hz)
      · exact List.Pairwise.cons hy hys
    case isFalse hxy =>
      constructor
      · intro z hz
        have hz' := (insertBy_perm le x ys).mem_iff.mp hz
        rw [List.mem_cons] at hz'
        rcases hz' with hz' | hz'
        · subst hz'
          rcases htot y z with h | h
          · exact h
          · exact absurd h hxy
        · exact hy z hz'
      · exact ih hys

theorem sortBy_pairwise (le : α → α → Bool)
    (htot : ∀ a b, le a b = true ∨ le b a = true)
    (htrans : ∀ a b c, le a b = true → le b c = true → le a c = true)
    (l : List α) : (sortBy le l).Pairwise (fun a b => le a b = true) := by
  induction l with
  | nil => simp [sortBy]
  | cons x xs ih => exact insertBy_pairwise le htot htrans x _ ih

theorem insertBy_eq_cons_of_le (le : α → α → Bool) (x : α) (l : List α)
    (h : ∀ y, l.head? = some y → le x y = true) : insertBy le x l = x :: l := by
  cases l with
  | nil => rfl
  | cons y ys =>
    simp only [insertBy]
    rw [if_pos (h y rfl)]

theorem sortBy_eq_of_pairwise (le : α → α → Bool) (l : List α)
    (h : l.Pairwise (fun a b => le a b = true)) : sortBy le l = l := by
  induction l with
  | nil => rfl
  | cons x xs ih =>
    rcases h with _ | ⟨hx, hxs⟩
    simp only [sortBy]
    rw [ih hxs]
    apply insertBy_eq_cons_of_le
    intro y hy
    cases xs with
    | nil => simp at hy
    | cons z zs =>
      simp only [List.head?_cons, Option.some.injEq] at hy
      subst hy
      exact hx z (by simp)

theorem insertBy_map (le₁ : α → α → Bool) (le₂ : β → β → Bool) (f : α → β)
    (hf : ∀ a b, le₂ (f a) (f b) = le₁ a b) (x : α) (l : List α) :
    insertBy le₂ (f x) (l.map f) = (insertBy le₁ x l).map f := by
  induction l with
  | nil => rfl
  | cons y ys ih =>
    simp only [List.map, insertBy, hf]
    split
    · rfl
    · simp [ih]

theorem sortBy_map (le₁ : α → α → Bool) (le₂ : β → β → Bool) (f : α → β)
    (hf : ∀ a b, le₂ (f a) (f b) = le₁ a b) (l : List α) :
    sortBy le₂ (l.map f) = (sortBy le₁ l).map f := by
  induction l with
  | nil => rfl
  | cons x xs ih =>
    simp only [List.map, sortBy, ih]
    exact insertBy_map le₁ le₂ f hf x _

theorem eq_of_perm_of_pairwise_asymm (lt : α → α → Prop)
    (asym : ∀ a b, lt a b → lt b a → False) :
    ∀ l₁ l₂ : List α, l₁.Perm l₂ → l₁.Pairwise lt → l₂.Pairwise lt → l₁ = l₂ := by
  intro l₁
  induction l₁ with
  | nil => intro l₂ hp _ _; exact hp.nil_eq
  | cons x xs ih =>
    intro l₂ hp h₁ h₂
    cases l₂ with
    | nil => exact absurd hp.symm.nil_eq (by simp)
    | cons a ys =>
      by_cases hxa : x = a
      · subst hxa
        have hxs : xs.Perm ys := hp.cons_inv
        rcases h₁ with _ | ⟨_, h₁'⟩
        rcases h₂ with _ | ⟨_, h₂'⟩
        rw [ih ys hxs h₁' h₂']
      · exfalso
        have hx₂ : x ∈ a :: ys := hp.mem_iff.mp (by simp)
        have ha₁ : a ∈ x :: xs := hp.symm.mem_iff.mp (by simp)
        have hxys : x ∈ ys := by
          rw [List.mem_cons] at hx₂
          rcases hx₂ with h | h
          · exact absurd h hxa
          · exact h
        have haxs : a ∈ xs := by
          rw [List.mem_cons] at ha₁
          rcases ha₁ with h | h
          · exact absurd h.symm hxa
          · exact h
        rcases h₁ with _ | ⟨hx, _⟩
        rcases h₂ with _ | ⟨ha, _⟩
        exact asym x a (hx a haxs) (ha x hxys)

theorem lookupKV_mem {p : String} {l : List (String × β)} {v : β}
    (h : lookupKV p l = some v) : p ∈ l.map Prod.fst := by
  induction l with
  | nil => simp [lookupKV] at h
  | cons kv r ih =>
    simp only [lookupKV] at h
    split at h
    case isTrue hk =>
      simp only [List.map, List.mem_cons]
      left
      exact hk.symm
    case isFalse hk =>
      simp only [List.map, List.mem_cons]
      right
      exact ih h

theorem mem_dedupStr {x : String} {l : List String} : x ∈ dedupStr l ↔ x ∈ l := by
  induction l with
  | nil => simp [dedupStr]
  | cons y ys ih =>
    simp only [dedupStr]
    split
    case isTrue hc =>
      rw [ih]
      constructor
      · intro h; exact List.mem_cons_of_mem y h
      · intro h
        rcases List.mem_cons.mp h with h | h
        · subst h; exact List.mem_of_elem_eq_true hc
        · exact h
    case isFalse hc =>
      simp only [List.mem_cons, ih]

theorem nodup_dedupStr (l : List String) : (dedupStr l).Nodup := by
  induction l with
  | nil => simp [dedupStr]
  | cons y ys ih =>
    simp only [dedupStr]
    split
    case isTrue hc => exact ih
    case isFalse hc =>
      refine List.Nodup.cons ?_ ih
      intro hmem
      have hy : y ∈ ys := mem_dedupStr.mp hmem
      have : ys.contains y = true := List.elem_eq_true_of_mem hy
      rw [this] at hc
      exact hc rfl

theorem char_toNat_inj {c d : Char} (h : c.toNat = d.toNat) : c = d := by
  have hv : c.val = d.val := UInt32.toNat.inj h
  exact Char.eq_of_val_eq hv

theorem listCharLe_total : ∀ a b : List Char, listCharLe a b = true ∨ listCharLe b a = true := by
  intro a
  induction a with
  | nil => intro b; left; rfl
  | cons x xs ih =>
    intro b
    cases b with
    | nil => right; rfl
    | cons y ys =>
      simp only [listCharLe]
      rcases Nat.lt_trichotomy x.toNat y.toNat with h | h | h
      · left; rw [if_pos h]
      · rw [if_neg (by omega), if_neg (by omega), if_neg (by omega), if_neg (by omega)]
        exact ih ys
      · right; rw [if_pos h]

theorem listCharLe_trans :
    ∀ a b c : List Char, listCharLe a b = true → listCharLe b c = true →
      listCharLe a c = true := by
  intro a
  induction a with
  | nil => intro b c _ _; rfl
  | cons x xs ih =>
    intro b c hab hbc
    cases b with
    | nil => simp [listCharLe] at hab
    | cons y ys =>
      cases c with
      | nil => simp [listCharLe] at hbc
      | cons z zs =>
        simp only [listCharLe] at hab hbc ⊢
        rcases Nat.lt_trichotomy x.toNat z.toNat with h | h | h
        · rw [if_pos h]
        · rw [if_neg (by omega), if_neg (by omega)]
          split_ifs at hab hbc with h₁ h₂ h₃ h₄
          all_goals try exact ih ys zs hab hbc
          all_goals simp_all
          all_goals omega
        · exfalso
          split_ifs at hab hbc <;> omega

theorem listCharLe_antisymm :
    ∀ a b : List Char, listCharLe a b = true → listCharLe b a = true → a = b := by
  intro a
  induction a with
  | nil =>
    intro b _ hba
    cases b with
    | nil => rfl
    | cons y ys => simp [listCharLe] at hba
  | cons x xs ih =>
    intro b hab hba
    cases b with
    | nil => simp [listCharLe] at hab
    | cons y ys =>
      simp only [listCharLe] at hab hba
      split_ifs at hab hba with h₁ h₂
      all_goals try omega
      have hx : x = y := char_toNat_inj (by omega)
      subst hx
      rw [ih ys hab hba]

theorem string_data_inj {s t : String} (h : s.data = t.data) : s = t := by
  cases s
  cases t
  exact congrArg String.mk h

theorem strLe_total (a b : String) : strLe a b = true ∨ strLe b a = true :=
  listCharLe_total a.data b.data

theorem strLe_trans {a b c : String} (h₁ : strLe a b = true) (h₂ : strLe b c = true) :
    strLe a c = true :=
  listCharLe_trans a.data b.data c.data h₁ h₂

theorem strLe_antisymm {a b : String} (h₁ : strLe a b = true) (h₂ : strLe b a = true) :
    a = b :=
  string_data_inj (listCharLe_antisymm a.data b.data h₁ h₂)

theorem str_append_assoc (a b c : String) : a ++ b ++ c = a ++ (b ++ c) := by
  apply string_data_inj
  simp [String.data_append, List.append_assoc]

theorem str_empty_append (s : String) : "" ++ s = s := by
  apply string_data_inj
  simp [String.data_append]

theorem strJoin_append (l₁ l₂ : List String) :
    strJoin (l₁ ++ l₂) = strJoin l₁ ++ strJoin l₂ := by
  induction l₁ with
  | nil =>
    simp only [List.nil_append, strJoin]
    rw [str_empty_append]
  | cons s ss ih =>
    simp only [List.cons_append, strJoin]
    show s ++ strJoin (ss ++ l₂) = s ++ strJoin ss ++ strJoin l₂
    rw [ih, str_append_assoc]

/-! ## Signet: skill directory hashing (`signet.py`) -/

mutual
/-- A directory of a skill tree: named file entries (name, content) together
with named subdirectory entries.  The order of the lists models the iteration
order of the file system as seen by `os.walk`. -/
inductive FsDir where
  | mk : List (String × String) → FsEntries → FsDir
/-- The subdirectory entries of a directory: a list of (name, directory)
pairs in file-system iteration order. -/
inductive FsEntries where
  | nil : FsEntries
  | cons : String → FsDir → FsEntries → FsEntries
end

/-- Directory names pruned by the walk in `signet.py`
(`dirs[:] = sorted(d for d in dirs if d not in SKIP_DIRS)`). -/
def SKIP_DIRS : List String :=
  [".git", "node_modules", "__pycache__", ".venv", "venv",
   ".integrity", ".quarantine", ".snapshots", ".ledger", ".signet"]

/-- SHA-256 of file contents (`file_hash` in `signet.py`), modelled as an
injective, never-empty digest of the content. -/
def file_hash (content : String) : String := "sha256:" ++ content

mutual
/-- The walk of `skill_hash`: `os.walk` visits a directory by emitting its
files in sorted name order and then descending into its non-skipped
subdirectories in sorted name order.  `walkFs` returns the
`(relative path, file hash)` pairs in exactly that order.  (The recursion
descends subdirectories in their given order and sorts the collected
`(name, pairs)` results by name; the theorem `walkFs_sorted_first` shows this
equals sorting the names first as the script does.) -/
def walkFs (pre : String) : FsDir → List (String × String)
  | .mk files entries =>
    (sortBy (fun a b => strLe a.1 b.1) files).map
      (fun p => (pre ++ p.1, file_hash p.2))
    ++ (sortBy (fun a b => strLe a.1 b.1) (walkSubs pre entries)).flatMap Prod.snd

/-- Collect, for each non-skipped subdirectory in iteration order, its name
and the recursive walk of its subtree. -/
def walkSubs (pre : String) : FsEntries → List (String × List (String × String))
  | .nil => []
  | .cons n sub rest =>
    (if n ∈ SKIP_DIRS then [] else [(n, walkFs (pre ++ n ++ "/") sub)])
      ++ walkSubs pre rest
end

/-- One `h.update(f"{rel}:{fh}")` step of `skill_hash` feeds this string into
the running digest. -/
def chunk (p : String × String) : String := p.1 ++ ":" ++ p.2

/-- `skill_hash(skill_dir)` of `signet.py`: the composite digest (modelled as
the concatenated update stream) together with the per-file hash map (as the
association list in insertion order). -/
def skill_hash (t : FsDir) : String × List (String × String) :=
  (strJoin ((walkFs "" t).map chunk), walkFs "" t)

/-- The subdirectory entries as a plain list, in iteration order. -/
def subsList : FsEntries → List (String × FsDir)
  | .nil => []
  | .cons n sub rest => (n, sub) :: subsList rest

/-- Rebuild an `FsEntries` from a plain list. -/
def entriesOf : List (String × FsDir) → FsEntries
  | [] => .nil
  | (n, sub) :: rest => .cons n sub (entriesOf rest)

/-- Names of all entries (files and subdirectories) of a directory level. -/
def levelNames (files : List (String × String)) (entries : FsEntries) : List String :=
  files.map Prod.fst ++ (subsList entries).map Prod.fst

/-- Order on file entries: by name, ties broken by content.  Used only to
canonicalize the model tree. -/
def filePairLe (a b : String × String) : Bool :=
  if a.1 = b.1 then strLe a.2 b.2 else strLe a.1 b.1

mutual
/-- Canonical form of a tree: sort the file entries and the subdirectory
entries of every level.  Two trees have the same canonical form exactly when
they list the same files and directories at every level, possibly in a
different file-system iteration order. -/
def canonFs : FsDir → FsDir
  | .mk files entries =>
    .mk (sortBy filePairLe files)
      (entriesOf (sortBy (fun a b => strLe a.1 b.1) (canonSubs entries)))
/-- Canonicalize each subdirectory of an entry list, keeping the list order. -/
def canonSubs : FsEntries → List (String × FsDir)
  | .nil => []
  | .cons n sub rest => (n, canonFs sub) :: canonSubs rest
end

mutual
/-- Well-formedness of a model tree as a real directory tree: at every level
the names of files and subdirectories are pairwise distinct. -/
def wfFs : FsDir → Bool
  | .mk files entries => decide (levelNames files entries).Nodup && wfSubs entries
/-- Well-formedness of every subdirectory of an entry list. -/
def wfSubs : FsEntries → Bool
  | .nil => true
  | .cons _ sub rest => wfFs sub && wfSubs rest
end

/-- Modelled from the spec: the composite digest obtained by sorting the
relative paths of all hashed files of the skill as one global list and
folding `path + ":" + hash` in that order (the `Sign` description of the
spec).  Compared against `skill_hash`, which folds in walk order. -/
def specSortedComposite (t : FsDir) : String :=
  strJoin ((sortBy (fun a b => strLe a.1 b.1) (walkFs "" t)).map chunk)

/-- One entry of the per-file difference report printed by `cmd_verify` for a
tampered skill. -/
inductive Delta where
  | modified : String → Delta
  | added : String → Delta
  | removed : String → Delta
deriving DecidableEq, Repr

/-- The per-file difference computation of `cmd_verify` (`signet.py` lines
223-234): iterate over the sorted union of the stored and the recomputed
path sets; a path with both hashes present but different is MODIFIED, only a
new hash is ADDED, only a stored hash is REMOVED. -/
def computeDeltas (trusted current : List (String × String)) : List Delta :=
  (sortBy strLe (dedupStr (trusted.map Prod.fst ++ current.map Prod.fst))).filterMap
    (fun p =>
      match lookupKV p trusted, lookupKV p current with
      | some o, some n => if o ≠ n then some (.modified p) else none
      | none, some _ => some (.added p)
      | some _, none => some (.removed p)
      | none, none => none)

/-- The record stored for one skill in the trust manifest. -/
structure SkillRecord where
  composite_hash : String
  files : List (String × String)
deriving DecidableEq, Repr

/-- The trust manifest: a map from skill name to its record. -/
structure Manifest where
  skills : List (String × SkillRecord)
deriving DecidableEq, Repr

/-- The state of the persisted manifest file: absent, present but not
parseable as JSON, or parsed. -/
inductive ManifestSource where
  | missing : ManifestSource
  | corrupt : ManifestSource
  | parsed : Manifest → ManifestSource

/-- `load_manifest` of `signet.py`: a missing file and a file that fails to
parse (`json.JSONDecodeError`, `OSError`) both return `None`. -/
def load_manifest : ManifestSource → Option Manifest
  | .missing => none
  | .corrupt => none
  | .parsed m => some m

/-- The outcome of verifying a single skill against the manifest, as printed
by `cmd_verify`. -/
inductive Outcome where
  | verified : Outcome
  | tampered : List Delta → Outcome
  | unsigned : Outcome
deriving DecidableEq, Repr

/-- The per-skill body of the `cmd_verify` loop (`signet.py` lines 196-234):
a skill absent from the manifest is UNSIGNED; otherwise the composite hash is
recomputed and compared, with a per-file difference report on mismatch. -/
def verifySkill (trusted : Option SkillRecord) (t : FsDir) : Outcome :=
  match trusted with
  | none => .unsigned
  | some rec =>
    if (skill_hash t).1 = rec.composite_hash then .verified
    else .tampered (computeDeltas rec.files (skill_hash t).2)

/-- Skill directories never listed as missing (`SELF_SKILL_DIRS`). -/
def SELF_SKILL_DIRS : List String := ["openclaw-signet", "openclaw-signet-pro"]

/-- The result of `cmd_verify`: its exit code and the skill names collected
into the `clean`, `unsigned` and `tampered` lists (tampered holds the
hash-mismatch skills followed by the signed-but-missing skills, in that
order), plus the difference report of each tampered skill. -/
structure VerifyReport where
  exitCode : Nat
  clean : List String
  unsignedSkills : List String
  tamperedSkills : List String
  deltas : List (String × List Delta)
deriving DecidableEq, Repr

/-- The main loop of `cmd_verify` over the skills found on disk, collecting
the three name lists and the difference reports in iteration order. -/
def verifyLoop (m : Manifest) : List (String × FsDir) →
    (List String × List String × List String × List (String × List Delta))
  | [] => ([], [], [], [])
  | (name, t) :: rest =>
    let r := verifyLoop m rest
    match verifySkill (lookupKV name m.skills) t with
    | .unsigned => (r.1, name :: r.2.1, r.2.2.1, r.2.2.2)
    | .verified => (name :: r.1, r.2.1, r.2.2.1, r.2.2.2)
    | .tampered ds => (r.1, r.2.1, name :: r.2.2.1, (name, ds) :: r.2.2.2)

/-- `cmd_verify` of `signet.py`: with no loadable manifest it prints
"No trust manifest found" and returns exit code 1 without examining any
skill; otherwise it verifies every skill on disk, appends manifest entries
that are no longer installed (outside `SELF_SKILL_DIRS`) to the tampered
list, and exits 2 on tampering, 1 on unsigned skills, else 0. -/
def cmd_verify (src : ManifestSource) (skills : List (String × FsDir)) : VerifyReport :=
  match load_manifest src with
  | none => { exitCode := 1, clean := [], unsignedSkills := [], tamperedSkills := [], deltas := [] }
  | some m =>
    let r := verifyLoop m skills
    let missing := (m.skills.map Prod.fst).filter
      (fun n => skills.all (fun s => s.1 ≠ n) && decide (n ∉ SELF_SKILL_DIRS))
    let tampered := r.2.2.1 ++ missing
    { exitCode := if tampered ≠ [] then 2 else if r.2.1 ≠ [] then 1 else 0,
      clean := r.1,
      unsignedSkills := r.2.1,
      tamperedSkills := tampered,
      deltas := r.2.2.2 }

/-! ### Faithfulness and order lemmas for the walk -/

theorem subsList_entriesOf (L : List (String × FsDir)) : subsList (entriesOf L) = L := by
  induction L with
  | nil => rfl
  | cons d rest ih =>
    cases d
    simp [entriesOf, subsList, ih]

theorem walkSubs_eq (pre : String) : ∀ es : FsEntries,
    walkSubs pre es = ((subsList es).filter (fun d => decide (d.1 ∉ SKIP_DIRS))).map
      (fun d => (d.1, walkFs (pre ++ d.1 ++ "/") d.2))
  | .nil => rfl
  | .cons n sub rest => by
    simp only [walkSubs, subsList, List.filter_cons]
    rw [walkSubs_eq pre rest]
    by_cases h : n ∈ SKIP_DIRS
    · simp [h]
    · simp [h]

theorem canonSubs_eq : ∀ es : FsEntries,
    canonSubs es = (subsList es).map (fun d => (d.1, canonFs d.2))
  | .nil => rfl
  | .cons n sub rest => by
    simp only [canonSubs, subsList, List.map_cons]
    rw [canonSubs_eq rest]

/-- Two lists of keyed entries that are permutations of each other with
pairwise-distinct keys have the same name-sorted order. -/
theorem pairwise_sortBy_key {γ : Type _} (l l₀ : List (String × γ))
    (hp : l.Perm l₀) (hnd : (l₀.map Prod.fst).Nodup) :
    (sortBy (fun a b => strLe a.1 b.1) l).Pairwise
      (fun a b => strLe a.1 b.1 = true ∧ a.1 ≠ b.1) := by
  have h₁ : (sortBy (fun a b : String × γ => strLe a.1 b.1) l).Pairwise
      (fun a b => strLe a.1 b.1 = true) := by
    apply sortBy_pairwise
    · intro a b; exact strLe_total a.1 b.1
    · intro a b c hab hbc; exact strLe_trans hab hbc
  have h₂ : (sortBy (fun a b : String × γ => strLe a.1 b.1) l).Pairwise
      (fun a b => a.1 ≠ b.1) := by
    rw [← @List.pairwise_map _ _ (Prod.fst : String × γ → String) (· ≠ ·) _]
    exact (((sortBy_perm _ l).trans hp).map Prod.fst).nodup_iff.mpr hnd
  exact h₁.and h₂

/-- Two lists of keyed entries that are permutations of each other with
pairwise-distinct keys have the same name-sorted order. -/
theorem sortBy_key_eq_of_perm {γ : Type _} (l₁ l₂ : List (String × γ))
    (hperm : l₁.Perm l₂) (hnd : (l₁.map Prod.fst).Nodup) :
    sortBy (fun a b => strLe a.1 b.1) l₁ = sortBy (fun a b => strLe a.1 b.1) l₂ := by
  apply eq_of_perm_of_pairwise_asymm
    (fun a b : String × γ => strLe a.1 b.1 = true ∧ a.1 ≠ b.1)
  · intro a b hab hba
    exact hab.2 (strLe_antisymm hab.1 hba.1)
  · exact ((sortBy_perm _ l₁).trans hperm).trans (sortBy_perm _ l₂).symm
  · exact pairwise_sortBy_key l₁ l₁ (List.Perm.refl l₁) hnd
  · exact pairwise_sortBy_key l₂ l₁ hperm.symm hnd

/-- The walk emits, for one directory level, its files first (sorted by name)
and then the contents of its non-skipped subdirectories sorted by
subdirectory name — the literal order of `skill_hash`, which sorts the names
and then descends. -/
theorem walkFs_sorted_first (pre : String) (files : List (String × String)) (es : FsEntries) :
    walkFs pre (.mk files es) =
      (sortBy (fun a b => strLe a.1 b.1) files).map (fun p => (pre ++ p.1, file_hash p.2))
      ++ (sortBy (fun a b => strLe a.1 b.1)
            ((subsList es).filter (fun d => decide (d.1 ∉ SKIP_DIRS)))).flatMap
          (fun d => walkFs (pre ++ d.1 ++ "/") d.2) := by
  simp only [walkFs]
  rw [walkSubs_eq]
  rw [sortBy_map (fun a b : String × FsDir => strLe a.1 b.1)
    (fun a b : String × List (String × String) => strLe a.1 b.1)
    (fun d => (d.1, walkFs (pre ++ d.1 ++ "/") d.2)) (fun a b => rfl)]
  rw [List.flatMap_map]

mutual
/-- Size of a directory tree, for induction. -/
def sizeFs : FsDir → Nat
  | .mk _ es => 1 + sizeEs es
/-- Size of an entry list, for induction. -/
def sizeEs : FsEntries → Nat
  | .nil => 0
  | .cons _ sub rest => 1 + sizeFs sub + sizeEs rest
end

theorem sizeFs_lt_of_mem {n : String} {sub : FsDir} : ∀ {es : FsEntries},
    (n, sub) ∈ subsList es → sizeFs sub < sizeEs es + 1
  | .nil, h => by simp [subsList] at h
  | .cons m d rest, h => by
    simp only [subsList, List.mem_cons, Prod.mk.injEq] at h
    rcases h with ⟨_, h⟩ | h
    · subst h
      simp only [sizeEs]
      omega
    · have := sizeFs_lt_of_mem h
      simp only [sizeEs]
      omega

theorem wfFs_mk {files : List (String × String)} {es : FsEntries}
    (h : wfFs (.mk files es) = true) :
    (levelNames files es).Nodup ∧ wfSubs es = true := by
  simp only [wfFs, Bool.and_eq_true, decide_eq_true_eq] at h
  exact h

theorem wfSubs_mem {n : String} {sub : FsDir} : ∀ {es : FsEntries},
    wfSubs es = true → (n, sub) ∈ subsList es → wfFs sub = true
  | .nil, _, h => by simp [subsList] at h
  | .cons m d rest, hwf, h => by
    simp only [wfSubs, Bool.and_eq_true] at hwf
    simp only [subsList, List.mem_cons, Prod.mk.injEq] at h
    rcases h with ⟨_, h⟩ | h
    · subst h; exact hwf.1
    · exact wfSubs_mem hwf.2 h

theorem walkFs_canon_bounded : ∀ k : Nat, ∀ t : FsDir, sizeFs t ≤ k → wfFs t = true →
    ∀ pre, walkFs pre (canonFs t) = walkFs pre t := by
  intro k
  induction k with
  | zero =>
    intro t hs
    cases t with
    | mk files es => simp [sizeFs] at hs
  | succ k ih =>
    intro t hs hwf pre
    cases t with
    | mk files es =>
    obtain ⟨hnd, hwfsubs⟩ := wfFs_mk hwf
    have hndFiles : (files.map Prod.fst).Nodup := by
      rw [levelNames, List.nodup_append] at hnd
      exact hnd.1
    have hndDirs : ((subsList es).map Prod.fst).Nodup := by
      rw [levelNames, List.nodup_append] at hnd
      exact hnd.2.1
    simp only [canonFs, walkFs]
    congr 1
    · -- files of this level
      congr 1
      apply sortBy_key_eq_of_perm
      · exact sortBy_perm _ files
      · exact (((sortBy_perm filePairLe files).map Prod.fst).nodup_iff).mpr hndFiles
    · -- subdirectory contents
      congr 1
      rw [walkSubs_eq, subsList_entriesOf, canonSubs_eq]
      rw [sortBy_map (fun a b : String × FsDir => strLe a.1 b.1)
        (fun a b : String × FsDir => strLe a.1 b.1)
        (fun d => (d.1, canonFs d.2)) (fun a b => rfl)]
      rw [List.filter_map]
      rw [show (fun d : String × FsDir => decide (d.1 ∉ SKIP_DIRS)) ∘
            (fun d : String × FsDir => (d.1, canonFs d.2)) =
          (fun d : String × FsDir => decide (d.1 ∉ SKIP_DIRS)) from rfl]
      rw [List.map_map]
      have hptw : ∀ d ∈ ((sortBy (fun a b : String × FsDir => strLe a.1 b.1)
            (subsList es)).filter (fun d => decide (d.1 ∉ SKIP_DIRS))),
          ((fun d : String × FsDir => (d.1, walkFs (pre ++ d.1 ++ "/") d.2)) ∘
            (fun d : String × FsDir => (d.1, canonFs d.2))) d
            = (fun d : String × FsDir => (d.1, walkFs (pre ++ d.1 ++ "/") d.2)) d := by
        intro d hd
        have hdmem : d ∈ subsList es :=
          mem_sortBy.mp (List.mem_of_mem_filter hd)
        have hdwf : wfFs d.2 = true := by
          have : (d.1, d.2) ∈ subsList es := by simpa using hdmem
          exact wfSubs_mem hwfsubs this
        have hdsz : sizeFs d.2 ≤ k := by
          have hdm2 : (d.1, d.2) ∈ subsList es := by simpa using hdmem
          have h1 : sizeFs d.2 < sizeEs es + 1 := sizeFs_lt_of_mem hdm2
          have h2 : sizeFs (FsDir.mk files es) = 1 + sizeEs es := rfl
          omega
        simp only [Function.comp]
        exact congrArg (fun w => (d.1, w)) (ih d.2 hdsz hdwf _)
      rw [List.map_congr_left hptw]
      rw [walkSubs_eq pre es]
      apply sortBy_key_eq_of_perm
      · refine List.Perm.map _ (List.Perm.filter _ ?_)
        exact sortBy_perm _ (subsList es)
      · have hsub : ((sortBy (fun a b : String × FsDir => strLe a.1 b.1)
              (subsList es)).filter (fun d => decide (d.1 ∉ SKIP_DIRS))).map Prod.fst
            = (((sortBy (fun a b : String × FsDir => strLe a.1 b.1)
              (subsList es)).filter (fun d => decide (d.1 ∉ SKIP_DIRS))).map
                (fun d : String × FsDir => (d.1, walkFs (pre ++ d.1 ++ "/") d.2))).map Prod.fst := by
          rw [List.map_map]
          rfl
        rw [← hsub]
        refine List.Nodup.sublist (List.Sublist.map Prod.fst (List.filter_sublist _)) ?_
        exact (((sortBy_perm _ (subsList es)).map Prod.fst).nodup_iff).mpr hndDirs

theorem skill_hash_canon (t : FsDir) (h : wfFs t = true) :
    skill_hash (canonFs t) = skill_hash t := by
  have hw := walkFs_canon_bounded (sizeFs t) t (le_refl _) h ""
  simp only [skill_hash, hw]

theorem walkFs_flat (pre : String) (files : List (String × String)) :
    walkFs pre (.mk files .nil) =
      (sortBy (fun a b => strLe a.1 b.1) files).map (fun p => (pre ++ p.1, file_hash p.2)) := by
  simp [walkFs, walkSubs, sortBy]

theorem skill_hash_flat (files : List (String × String)) :
    (skill_hash (FsDir.mk files FsEntries.nil)).1
      = specSortedComposite (FsDir.mk files FsEntries.nil) := by
  have hw : walkFs "" (FsDir.mk files FsEntries.nil)
      = (sortBy (fun a b => strLe a.1 b.1) files).map (fun p => (p.1, file_hash p.2)) := by
    rw [walkFs_flat]
    apply List.map_congr_left
    intro p _
    rw [str_empty_append]
  have hsorted : sortBy (fun a b => strLe a.1 b.1)
      ((sortBy (fun a b : String × String => strLe a.1 b.1) files).map
        (fun p => (p.1, file_hash p.2)))
      = (sortBy (fun a b : String × String => strLe a.1 b.1) files).map
        (fun p => (p.1, file_hash p.2)) := by
    apply sortBy_eq_of_pairwise
    rw [List.pairwise_map]
    apply sortBy_pairwise
    · intro a b; exact strLe_total a.1 b.1
    · intro a b c hab hbc; exact strLe_trans hab hbc
  simp only [skill_hash, specSortedComposite]
  rw [hw, hsorted]

/-- Sample skill tree with a file name that sorts after a subdirectory name:
the walk hashes `b.txt` before `a/c.txt`, but the global lexicographic order
of the relative paths is `a/c.txt`, `b.txt`. -/
def fsSample : FsDir :=
  .mk [("b.txt", "x")] (.cons "a" (.mk [("c.txt", "y")] .nil) .nil)

/-- C1 counterexample: for the skill tree `fsSample` the composite hash
computed by `skill_hash` differs from the digest over the globally sorted
`path:hash` list, because the walk emits the files of the skill root before
the contents of the subdirectory `a` even though `a/c.txt` sorts before
`b.txt`. -/
theorem c1_counterexample :
    (skill_hash fsSample).1 ≠ specSortedComposite fsSample := by decide

/-- C1 (amended): the composite hash of `skill_hash` folds `path + ":" + hash`
in `os.walk` order — at every directory level the files of the level in
sorted name order first, then the contents of the non-skipped subdirectories
in sorted subdirectory-name order — not in globally sorted path order; for a
skill whose files all sit directly in the root, the two orders coincide and
the composite hash equals the digest over the globally sorted `path:hash`
list. -/
theorem c1_composite_walk_order :
    (∀ pre files es, walkFs pre (FsDir.mk files es) =
      (sortBy (fun a b => strLe a.1 b.1) files).map (fun p => (pre ++ p.1, file_hash p.2))
      ++ (sortBy (fun a b => strLe a.1 b.1)
            ((subsList es).filter (fun d => decide (d.1 ∉ SKIP_DIRS)))).flatMap
          (fun d => walkFs (pre ++ d.1 ++ "/") d.2)) ∧
    (∀ files, (skill_hash (FsDir.mk files FsEntries.nil)).1
      = specSortedComposite (FsDir.mk files FsEntries.nil)) :=
  ⟨walkFs_sorted_first, skill_hash_flat⟩

/-- C2: the composite hash and the per-file hash map of `skill_hash` are a
function of the content of the tree alone: two well-formed trees with the
same canonical form — the same files and subdirectories at every level, in
any file-system iteration order — hash identically.  Instantiating both
trees with the same tree gives the run-twice determinism of `Sign`. -/
theorem c2_hash_independent_of_iteration_order :
    ∀ t₁ t₂ : FsDir, wfFs t₁ = true → wfFs t₂ = true → canonFs t₁ = canonFs t₂ →
      skill_hash t₁ = skill_hash t₂ := by
  intro t₁ t₂ h₁ h₂ hc
  have e₁ := skill_hash_canon t₁ h₁
  have e₂ := skill_hash_canon t₂ h₂
  rw [← e₁, ← e₂, hc]

/-- Sample tree listing its entries in one iteration order. -/
def fsOrderA : FsDir :=
  .mk [("a.txt", "1"), ("b.txt", "2")]
    (.cons "d" (.mk [("x", "3")] .nil) (.cons "c" (.mk [("y", "4")] .nil) .nil))

/-- The same tree content listed in the reverse iteration order. -/
def fsOrderB : FsDir :=
  .mk [("b.txt", "2"), ("a.txt", "1")]
    (.cons "c" (.mk [("y", "4")] .nil) (.cons "d" (.mk [("x", "3")] .nil) .nil))

/-- C2 witness: the two orderings of the same tree content are well formed,
canonicalize identically, and receive the same composite hash and file map. -/
theorem c2_hash_independent_witness :
    wfFs fsOrderA = true ∧ wfFs fsOrderB = true ∧ canonFs fsOrderA = canonFs fsOrderB ∧
      skill_hash fsOrderA = skill_hash fsOrderB :=
  ⟨by decide, by decide, rfl,
    c2_hash_independent_of_iteration_order fsOrderA fsOrderB (by decide) (by decide) rfl⟩

/-! ### Verification outcome lemmas -/

theorem lookupKV_append (q : String) (A r : List (String × β)) :
    lookupKV q (A ++ r) = match lookupKV q A with
      | some v => some v
      | none => lookupKV q r := by
  induction A with
  | nil => simp [lookupKV]
  | cons kv rest ih =>
    cases kv with
    | mk k v =>
      simp only [List.cons_append, lookupKV]
      split
      · rfl
      · exact ih

theorem lookupKV_head_ne (q k : String) (v : β) (B : List (String × β)) (h : k ≠ q) :
    lookupKV q ((k, v) :: B) = lookupKV q B := by
  simp [lookupKV, h]

theorem lookupKV_head_eq (q : String) (v : β) (B : List (String × β)) :
    lookupKV q ((q, v) :: B) = some v := by
  simp [lookupKV]

theorem lookupKV_not_mem (q : String) (A : List (String × β))
    (h : q ∉ A.map Prod.fst) : lookupKV q A = none := by
  induction A with
  | nil => rfl
  | cons kv rest ih =>
    cases kv with
    | mk k v =>
      simp only [List.map_cons, List.mem_cons] at h
      push_neg at h
      rw [lookupKV_head_ne q k v rest (fun he => h.1 he.symm)]
      exact ih h.2

theorem lookupKV_mid (q : String) (A B : List (String × β)) (v : β)
    (h : q ∉ A.map Prod.fst) : lookupKV q (A ++ (q, v) :: B) = some v := by
  rw [lookupKV_append, lookupKV_not_mem q A h, lookupKV_head_eq]

theorem lookupKV_outside (q p : String) (A B : List (String × β)) (x y : β)
    (h : q ≠ p) :
    lookupKV q (A ++ (p, x) :: B) = lookupKV q (A ++ (p, y) :: B) := by
  rw [lookupKV_append, lookupKV_append,
    lookupKV_head_ne q p x B (fun he => h he.symm),
    lookupKV_head_ne q p y B (fun he => h he.symm)]

theorem chunk_stream_ne (pre suf : List (String × String)) (p c c' : String)
    (h : c ≠ c') :
    strJoin ((pre ++ (p, c) :: suf).map chunk)
      ≠ strJoin ((pre ++ (p, c') :: suf).map chunk) := by
  intro heq
  apply h
  rw [List.map_append, List.map_cons, List.map_append, List.map_cons] at heq
  rw [strJoin_append, strJoin_append] at heq
  have hdata := congrArg String.data heq
  simp only [String.data_append, strJoin] at hdata
  have h₁ := List.append_cancel_left hdata
  have h₂ := List.append_cancel_right h₁
  simp only [chunk, String.data_append] at h₂
  have h₃ := List.append_cancel_left h₂
  exact string_data_inj h₃

theorem filterMap_eq_singleton {f : α → Option β} [DecidableEq α] :
    ∀ (l : List α) (p : α) (b : β), l.Nodup → p ∈ l → f p = some b →
      (∀ q ∈ l, q ≠ p → f q = none) → l.filterMap f = [b]
  | [], p, b, _, hmem, _, _ => by simp at hmem
  | x :: rest, p, b, hnd, hmem, hfp, hothers => by
    by_cases hxp : x = p
    · subst hxp
      rw [List.filterMap_cons, hfp]
      have hrest : rest.filterMap f = [] := by
        rw [List.filterMap_eq_nil_iff]
        intro q hq
        apply hothers q (List.mem_cons_of_mem x hq)
        intro he
        subst he
        exact (List.nodup_cons.mp hnd).1 hq
      rw [hrest]
    · have hx : f x = none := hothers x (by simp) hxp
      rw [List.filterMap_cons, hx]
      have hpr : p ∈ rest := by
        rcases List.mem_cons.mp hmem with h | h
        · exact absurd h.symm hxp
        · exact h
      exact filterMap_eq_singleton rest p b (List.nodup_cons.mp hnd).2 hpr hfp
        (fun q hq => hothers q (List.mem_cons_of_mem x hq))

theorem mem_deltas_modified (trusted current : List (String × String)) (p : String) :
    Delta.modified p ∈ computeDeltas trusted current ↔
      ∃ o n, lookupKV p trusted = some o ∧ lookupKV p current = some n ∧ o ≠ n := by
  simp only [computeDeltas, List.mem_filterMap]
  constructor
  · rintro ⟨q, _, hfq⟩
    rcases ht : lookupKV q trusted with _ | o <;> rcases hc : lookupKV q current with _ | n <;>
      rw [ht, hc] at hfq <;> simp only [] at hfq
    · cases hfq
    · cases hfq
    · cases hfq
    · split at hfq
      case isTrue hne =>
        cases hfq
        exact ⟨o, n, ht, hc, hne⟩
      case isFalse hne => cases hfq
  · rintro ⟨o, n, ho, hn, hne⟩
    refine ⟨p, ?_, ?_⟩
    · rw [mem_sortBy, mem_dedupStr, List.mem_append]
      left
      exact lookupKV_mem ho
    · rw [ho, hn]
      simp [hne]

theorem mem_deltas_added (trusted current : List (String × String)) (p : String) :
    Delta.added p ∈ computeDeltas trusted current ↔
      lookupKV p trusted = none ∧ ∃ n, lookupKV p current = some n := by
  simp only [computeDeltas, List.mem_filterMap]
  constructor
  · rintro ⟨q, _, hfq⟩
    rcases ht : lookupKV q trusted with _ | o <;> rcases hc : lookupKV q current with _ | n <;>
      rw [ht, hc] at hfq <;> simp only [] at hfq
    · cases hfq
    · cases hfq
      exact ⟨ht, n, hc⟩
    · cases hfq
    · split at hfq
      case isTrue hne => cases hfq
      case isFalse hne => cases hfq
  · rintro ⟨ht, n, hn⟩
    refine ⟨p, ?_, ?_⟩
    · rw [mem_sortBy, mem_dedupStr, List.mem_append]
      right
      exact lookupKV_mem hn
    · rw [ht, hn]

theorem mem_deltas_removed (trusted current : List (String × String)) (p : String) :
    Delta.removed p ∈ computeDeltas trusted current ↔
      (∃ o, lookupKV p trusted = some o) ∧ lookupKV p current = none := by
  simp only [computeDeltas, List.mem_filterMap]
  constructor
  · rintro ⟨q, _, hfq⟩
    rcases ht : lookupKV q trusted with _ | o <;> rcases hc : lookupKV q current with _ | n <;>
      rw [ht, hc] at hfq <;> simp only [] at hfq
    · cases hfq
    · cases hfq
    · cases hfq
      exact ⟨⟨o, ht⟩, hc⟩
    · split at hfq
      case isTrue hne => cases hfq
      case isFalse hne => cases hfq
  · rintro ⟨⟨o, ho⟩, hc⟩
    refine ⟨p, ?_, ?_⟩
    · rw [mem_sortBy, mem_dedupStr, List.mem_append]
      left
      exact lookupKV_mem ho
    · rw [ho, hc]

theorem verify_single_modified
    (t t' : FsDir) (pre suf : List (String × String)) (p c c' : String)
    (h₁ : walkFs "" t = pre ++ (p, c) :: suf)
    (h₂ : walkFs "" t' = pre ++ (p, c') :: suf)
    (hne : c ≠ c')
    (hp : p ∉ (pre ++ suf).map Prod.fst) :
    verifySkill (some ⟨(skill_hash t).1, (skill_hash t).2⟩) t' =
      Outcome.tampered [Delta.modified p] := by
  have hpp : p ∉ pre.map Prod.fst ∧ p ∉ suf.map Prod.fst := by
    rw [List.map_append, List.mem_append] at hp
    push_neg at hp
    exact hp
  have hcomp : (skill_hash t').1 ≠ (skill_hash t).1 := by
    simp only [skill_hash, h₁, h₂]
    exact chunk_stream_ne pre suf p c' c (fun he => hne he.symm)
  simp only [verifySkill]
  rw [if_neg hcomp]
  congr 1
  show computeDeltas (skill_hash t).2 (skill_hash t').2 = [Delta.modified p]
  simp only [skill_hash, h₁, h₂]
  simp only [computeDeltas]
  refine filterMap_eq_singleton _ p _ ?_ ?_ ?_ ?_
  · exact (sortBy_perm _ _).nodup_iff.mpr (nodup_dedupStr _)
  · rw [mem_sortBy, mem_dedupStr, List.mem_append]
    left
    simp
  · rw [lookupKV_mid p pre suf c hpp.1, lookupKV_mid p pre suf c' hpp.1]
    simp [hne]
  · intro q _ hqp
    rcases hl : lookupKV q (pre ++ (p, c) :: suf) with _ | o
    · have hc : lookupKV q (pre ++ (p, c') :: suf) = none := by
        rw [← lookupKV_outside q p pre suf c c' hqp]
        exact hl
      rw [hc]
    · have hc : lookupKV q (pre ++ (p, c') :: suf) = some o := by
        rw [← lookupKV_outside q p pre suf c c' hqp]
        exact hl
      rw [hc]
      simp

/-- C3: the per-file difference report of `cmd_verify` classifies exactly as
the claim states — a path with both hashes present and different is Modified,
only a recomputed hash is Added, only a stored hash is Removed — and after
signing a skill and changing the content of exactly one file, re-verifying
yields Tampered with that single file reported Modified and nothing Added or
Removed. -/
theorem c3_verify_delta_classification :
    (∀ trusted current : List (String × String), ∀ p,
      (Delta.modified p ∈ computeDeltas trusted current ↔
        ∃ o n, lookupKV p trusted = some o ∧ lookupKV p current = some n ∧ o ≠ n) ∧
      (Delta.added p ∈ computeDeltas trusted current ↔
        lookupKV p trusted = none ∧ ∃ n, lookupKV p current = some n) ∧
      (Delta.removed p ∈ computeDeltas trusted current ↔
        (∃ o, lookupKV p trusted = some o) ∧ lookupKV p current = none)) ∧
    (∀ t t' : FsDir, ∀ pre suf : List (String × String), ∀ p c c',
      walkFs "" t = pre ++ (p, c) :: suf →
      walkFs "" t' = pre ++ (p, c') :: suf →
      c ≠ c' →
      p ∉ (pre ++ suf).map Prod.fst →
      verifySkill (some ⟨(skill_hash t).1, (skill_hash t).2⟩) t' =
        Outcome.tampered [Delta.modified p]) :=
  ⟨fun trusted current p =>
    ⟨mem_deltas_modified trusted current p,
     mem_deltas_added trusted current p,
     mem_deltas_removed trusted current p⟩,
   verify_single_modified⟩

/-- Sample skill as signed. -/
def fsSigned : FsDir := .mk [("a.md", "u"), ("b.md", "v")] .nil

/-- The same skill with the content of exactly the file `b.md` changed. -/
def fsModified : FsDir := .mk [("a.md", "u"), ("b.md", "w")] .nil

/-- C3 witness: signing `fsSigned`, changing one file to get `fsModified` and
re-verifying reports Tampered with exactly `b.md` Modified. -/
theorem c3_verify_delta_witness :
    walkFs "" fsSigned = [("a.md", "sha256:u")] ++ ("b.md", "sha256:v") :: [] ∧
    walkFs "" fsModified = [("a.md", "sha256:u")] ++ ("b.md", "sha256:w") :: [] ∧
    ("sha256:v" : String) ≠ "sha256:w" ∧
    "b.md" ∉ (([("a.md", "sha256:u")] ++ ([] : List (String × String))).map Prod.fst) ∧
    verifySkill (some ⟨(skill_hash fsSigned).1, (skill_hash fsSigned).2⟩) fsModified
      = Outcome.tampered [Delta.modified "b.md"] :=
  ⟨by decide, by decide, by decide, by decide,
    c3_verify_delta_classification.2 fsSigned fsModified [("a.md", "sha256:u")] []
      "b.md" "sha256:v" "sha256:w" (by decide) (by decide) (by decide) (by decide)⟩

/-- A minimal installed skill for the manifest-free verification runs. -/
def fsAlphaTree : FsDir := .mk [("SKILL.md", "m")] .nil

/-- C4 counterexample: with the manifest file missing and the skill `alpha`
present on disk, `cmd_verify` does not report `alpha` as Unsigned — it
returns exit code 1 with empty report lists before examining any skill. -/
theorem c4_counterexample :
    "alpha" ∉ (cmd_verify ManifestSource.missing [("alpha", fsAlphaTree)]).unsignedSkills := by
  decide

/-- C4 (amended): a missing manifest file and a manifest file that fails to
parse are treated alike — `load_manifest` returns None rather than raising —
and `cmd_verify` then prints "No trust manifest found", returns exit code 1
(the same non-tampered review code used for unsigned skills), and reports no
skill at all; in particular no skill is listed as Unsigned. -/
theorem c4_no_manifest_behavior :
    load_manifest ManifestSource.missing = none ∧
    load_manifest ManifestSource.corrupt = none ∧
    (∀ src skills, load_manifest src = none →
      cmd_verify src skills =
        { exitCode := 1, clean := [], unsignedSkills := [],
          tamperedSkills := [], deltas := [] }) :=
  ⟨rfl, rfl, by
    intro src skills h
    simp only [cmd_verify, h]⟩

/-- C4 witness: running the manifest-free verification over a workspace with
one installed skill. -/
theorem c4_no_manifest_witness :
    load_manifest ManifestSource.missing = none ∧
    cmd_verify ManifestSource.missing [("alpha", fsAlphaTree)] =
      { exitCode := 1, clean := [], unsignedSkills := [],
        tamperedSkills := [], deltas := [] } :=
  ⟨rfl, c4_no_manifest_behavior.2.2 ManifestSource.missing [("alpha", fsAlphaTree)] rfl⟩

/-! ## Scanner: per-line pattern matching (`scan_skill.py`) -/

/-- One finding of the scanner. -/
structure Finding where
  level : String
  file : String
  line : Nat
  pattern : String
  description : String
  context : String
deriving DecidableEq, Repr

/-- The `CRITICAL_PATTERNS` catalog of `scan_skill.py`: regular-expression
source strings paired with their descriptions, in dictionary insertion
order.  The pattern text is carried verbatim (it is matched by the abstract
matcher and inspected as a string by the documentation-file skip). -/
def CRITICAL_PATTERNS : List (String × String) := [
  ("\\.ssh[/\\\\]", "SSH key access"),
  ("\\.aws[/\\\\]", "AWS credentials access"),
  ("\\.openclaw[/\\\\]credentials", "OpenClaw credentials access"),
  ("(open|read|load|write).*\\.clawdbot", "ClawdBot config file access"),
  ("\\.clawdbot.*\\.env", "ClawdBot .env access (ClawHavoc target!)"),
  ("(open|read|load).*\\.env", "Environment file read"),
  ("dotenv\\.load|load_dotenv", "Dotenv loading"),
  ("private[_-]?key|privatekey", "Private key reference"),
  ("nc\\s+.*-e", "Netcat reverse shell"),
  ("bash\\s+-i\\s+.*\\/dev\\/tcp", "Bash reverse shell"),
  ("\\/bin\\/sh\\s*\\|\\s*nc", "Shell pipe to netcat"),
  ("python.*socket.*subprocess", "Python reverse shell pattern"),
  ("socket\\..*connect.*shell", "Socket-based shell"),
  ("pty\\.spawn", "PTY spawn (shell escape)"),
  ("curl\\s+.*\\|\\s*(ba)?sh", "Curl pipe to shell (DANGEROUS!)"),
  ("wget\\s+.*\\|\\s*(ba)?sh", "Wget pipe to shell (DANGEROUS!)"),
  ("curl\\s+.*>\\s*.*\\.sh\\s*&&", "Download and execute script"),
  ("wget\\s+.*&&\\s*chmod\\s*\\+x", "Download and make executable"),
  ("discord\\.com\\/api\\/webhooks", "Discord webhook exfiltration"),
  ("hooks\\.slack\\.com", "Slack webhook exfiltration"),
  ("glot\\.io", "glot.io (known malware host)"),
  ("pastebin\\.com\\/raw", "Pastebin raw (code hosting)"),
  ("paste\\.ee|ghostbin|hastebin", "Paste service (code hosting)"),
  ("raw\\.githubusercontent\\.com.*\\.sh", "GitHub raw shell script"),
  ("crontab\\s+-", "Crontab modification"),
  ("\\/etc\\/cron", "System cron access"),
  ("systemctl\\s+(enable|start)", "Systemd service manipulation"),
  ("LaunchAgents|LaunchDaemons", "macOS persistence"),
  ("\\.bashrc|\\.zshrc|\\.profile", "Shell profile modification"),
  ("requests\\.(post|put|patch)\\s*\\([^)]*\\b(key|secret|token|password|cred)",
    "Credential exfiltration attempt"),
  ("urllib.*urlopen.*POST", "URL POST request"),
  ("curl\\s+.*-[dX]\\s*(POST|PUT)", "Curl POST/PUT command"),
  ("wget\\s+.*--post", "Wget POST command"),
  ("ngrok|localtunnel|serveo", "Tunnel service usage"),
  ("eval\\s*\\(", "eval() usage"),
  ("exec\\s*\\(", "exec() usage"),
  ("subprocess.*shell\\s*=\\s*True", "Shell injection risk"),
  ("os\\.system\\s*\\(", "os.system() command execution"),
  ("os\\.popen\\s*\\(", "os.popen() command execution"),
  ("open\\s*\\([^)]*[\"\\\x27]\\/etc\\/", "/etc/ file access"),
  ("open\\s*\\([^)]*[\"\\\x27]\\/usr\\/", "/usr/ file access"),
  ("open\\s*\\([^)]*[\"\\\x27]\\/root\\/", "/root/ file access"),
  ("os\\.symlink", "Symlink creation"),
  ("shutil\\.rmtree\\s*\\([^)]*[\"\\\x27]\\/", "Root directory deletion"),
  ("rm\\s+-rf?\\s+\\/", "Dangerous rm command"),
  ("chmod\\s+777", "World-writable permissions"),
  ("chmod\\s+[0-7]*[67][0-7]\x7b2\x7d", "Dangerous permission change"),
  ("setuid|setgid", "Setuid/setgid usage"),
  ("chown\\s+root", "Chown to root"),
  ("wallet.*\\.dat", "Wallet file access"),
  ("seed\\s*phrase|mnemonic", "Seed phrase reference"),
  ("keystore", "Keystore access"),
  ("metamask|phantom|ledger", "Wallet software reference"),
  ("base64\\.(b64)?decode.*exec", "Base64 decoded execution"),
  ("base64\\s+-d\\s*\\|", "Base64 decode pipe (obfuscation)"),
  ("(\\\\x[0-9a-fA-F]\x7b2\x7d)\x7b10,\x7d", "Hex-encoded string (long)"),
  ("zlib\\.decompress.*exec", "Compressed code execution"),
  ("marshal\\.loads", "Marshal deserialization"),
  ("pickle\\.loads?\\s*\\(", "Pickle deserialization (RCE risk)"),
  ("unzip\\s+.*-P", "Password-protected ZIP extraction"),
  ("7z\\s+.*-p", "7zip with password")]

/-- The `WARNING_PATTERNS` catalog of `scan_skill.py`. -/
def WARNING_PATTERNS : List (String × String) := [
  ("socket\\.socket", "Raw socket usage (unusual)"),
  ("compile\\s*\\(.*exec", "Dynamic code compilation"),
  ("globals\\s*\\(\\)\\s*\\[", "Globals manipulation"),
  ("\\/var\\/log", "/var/log access"),
  ("\\/var\\/run", "/var/run access"),
  ("shutil\\.rmtree", "Directory tree deletion"),
  ("os\\.remove|os\\.unlink", "File deletion"),
  ("smtplib|send_mail|sendmail", "Email sending capability"),
  ("pyscreenshot|pyautogui|pynput", "Screen/keyboard capture library"),
  ("\\bkeyboard\\b(?!Interrupt)", "Keyboard capture library"),
  ("ImageGrab|take_screenshot|capture_screen", "Screenshot capability"),
  ("ctypes.*kernel|ctypes.*user32", "Low-level system calls"),
  ("win32api|win32con", "Windows API access")]

/-- The `INFO_PATTERNS` catalog of `scan_skill.py` is empty. -/
def INFO_PATTERNS : List (String × String) := []

/-- The `WHITELIST_PATTERNS` list of `scan_skill.py`: comment marker,
docstring delimiters, standard API hosts, localhost references. -/
def WHITELIST_PATTERNS : List String :=
  ["# ", "\"\"\"", "\x27\x27\x27", "https://api\\.", "localhost|127\\.0\\.0\\.1"]

/-- `is_whitelisted` of `scan_skill.py`: the line matches some whitelist
pattern (case-insensitive regex search, given by the abstract matcher). -/
def is_whitelisted (rmatch : String → String → Bool) (line : String) : Bool :=
  WHITELIST_PATTERNS.any (fun p => rmatch p line)

/-- Documentation file test of `scan_file`:
`rel_path.endswith((".md", ".rst", ".txt"))`. -/
def isDocFile (relPath : String) : Bool :=
  endsWithStr relPath ".md" || endsWithStr relPath ".rst" || endsWithStr relPath ".txt"

/-- Shell file test of `scan_file`: `rel_path.endswith((".sh", ".bash"))`. -/
def isShellFile (relPath : String) : Bool :=
  endsWithStr relPath ".sh" || endsWithStr relPath ".bash"

/-- The findings appended for one (non-whitelisted) line by `scan_file`:
the special sudo check, the shell-substitution check with its literal
substring guards, the critical catalog (with the sudo/chmod/chown patterns
skipped in documentation files), the warning catalog (skipped entirely in
documentation files) and the capped info catalog. -/
def lineFindings (rmatch : String → String → Bool) (relPath : String) (lineNum : Nat)
    (line : String) (infoCount : Nat) : List Finding :=
  let isDoc := isDocFile relPath
  let ctx := takeStr (trimStr line) 100
  let sudoF : List Finding :=
    if !isDoc && rmatch "\\bsudo\\b" line then
      [{ level := "CRITICAL", file := relPath, line := lineNum, pattern := "sudo",
         description := "Sudo usage in script", context := ctx }]
    else []
  let substF : List Finding :=
    if strContains line "$(" && !strContains line "re." && !strContains line "r\x27"
        && !strContains line "r\"" then
      if !(strContains line "regex" || strContains line "pattern"
          || strContains line "findall") then
        if !isShellFile relPath then
          [{ level := "CRITICAL", file := relPath, line := lineNum, pattern := "$(...)",
             description := "Shell command substitution in non-shell file", context := ctx }]
        else []
      else []
    else []
  let critF : List Finding :=
    CRITICAL_PATTERNS.filterMap (fun pd =>
      if rmatch pd.1 line then
        if isDoc && (strContains pd.1 "sudo" || strContains pd.1 "chmod"
            || strContains pd.1 "chown") then none
        else some { level := "CRITICAL", file := relPath, line := lineNum,
                    pattern := takeStr pd.1 40, description := pd.2, context := ctx }
      else none)
  let warnF : List Finding :=
    if !isDoc then
      WARNING_PATTERNS.filterMap (fun pd =>
        if rmatch pd.1 line then
          some { level := "WARNING", file := relPath, line := lineNum,
                 pattern := takeStr pd.1 40, description := pd.2, context := ctx }
        else none)
    else []
  let infoF : List Finding :=
    if infoCount < 20 then
      match INFO_PATTERNS.find? (fun pd => rmatch pd.1 line) with
      | some pd => [{ level := "INFO", file := relPath, line := lineNum,
                      pattern := takeStr pd.1 40, description := pd.2,
                      context := takeStr (trimStr line) 80 }]
      | none => []
    else []
  sudoF ++ substF ++ critF ++ warnF ++ infoF

/-- Number of INFO findings collected so far (`ScanResult.info_count`). -/
def info_count (fs : List Finding) : Nat :=
  (fs.filter (fun f => f.level == "INFO")).length

/-- One iteration of the line loop of `scan_file`: a whitelisted line is
skipped before any rule evaluation; otherwise all checks run and their
findings are appended. -/
def processLine (rmatch : String → String → Bool) (relPath : String)
    (acc : List Finding) (lineNum : Nat) (line : String) : List Finding :=
  if is_whitelisted rmatch line then acc
  else acc ++ lineFindings rmatch relPath lineNum line (info_count acc)

/-- The line loop of `scan_file` over the lines of a file, with 1-based line
numbers. -/
def scanLines (rmatch : String → String → Bool) (relPath : String) :
    Nat → List String → List Finding → List Finding
  | _, [], acc => acc
  | n, line :: rest, acc =>
    scanLines rmatch relPath (n + 1) rest (processLine rmatch relPath acc n line)

/-- `scan_file` of `scan_skill.py`, restricted to the findings it appends for
the given file content. -/
def scan_file (rmatch : String → String → Bool) (relPath : String)
    (lines : List String) : List Finding :=
  scanLines rmatch relPath 1 lines []

/-- `ScanResult.risk_score`: criticals weigh 30, warnings 3 capped at 10,
info 1 capped at 5, total capped at 100. -/
def risk_score (criticalCount warningCount infoCount : Nat) : Nat :=
  min 100 (criticalCount * 30 + min warningCount 10 * 3 + min infoCount 5 * 1)

/-- `ScanResult.risk_level`: the verdict thresholds, evaluated high to low. -/
def risk_level (score : Nat) : String :=
  if score ≥ 81 then "BLOCKED"
  else if score ≥ 51 then "DANGER"
  else if score ≥ 21 then "CAUTION"
  else "SAFE"

/-! ### Scanner theorems -/

theorem eq_of_mem_ite_singleton {c : Prop} [Decidable c] {x f : α}
    (h : f ∈ (if c then [x] else ([] : List α))) : f = x := by
  split at h
  · simpa using h
  · simp at h

/-- C5: the risk score equals the formula of the spec, is bounded by 100,
is non-decreasing in each argument, and takes the stated boundary values. -/
theorem c5_risk_score_formula :
    (∀ c w i, risk_score c w i = min 100 (30 * c + 3 * min w 10 + 1 * min i 5)) ∧
    (∀ c w i, risk_score c w i ≤ 100) ∧
    (∀ c c' w w' i i', c ≤ c' → w ≤ w' → i ≤ i' →
      risk_score c w i ≤ risk_score c' w' i') ∧
    risk_score 0 0 0 = 0 ∧ risk_score 1 0 0 = 30 ∧ risk_score 4 0 0 = 100 := by
  refine ⟨?_, ?_, ?_, by decide, by decide, by decide⟩
  · intro c w i
    simp only [risk_score]
    omega
  · intro c w i
    simp only [risk_score]
    omega
  · intro c c' w w' i i' hc hw hi
    simp only [risk_score]
    omega

/-- C5 witness: monotonicity of the risk score at concrete counts. -/
theorem c5_risk_score_witness :
    (1 ≤ 2 ∧ 3 ≤ 4 ∧ 5 ≤ 6) ∧ risk_score 1 3 5 ≤ risk_score 2 4 6 :=
  ⟨⟨by decide, by decide, by decide⟩,
    c5_risk_score_formula.2.2.1 1 2 3 4 5 6 (by decide) (by decide) (by decide)⟩

/-- C6: the verdict thresholds on scores in [0,100] are exactly as claimed,
with the stated boundary values. -/
theorem c6_verdict_thresholds :
    (∀ s : Nat, s ≤ 100 →
      ((risk_level s = "BLOCKED" ↔ 81 ≤ s) ∧
       (risk_level s = "DANGER" ↔ 51 ≤ s ∧ s ≤ 80) ∧
       (risk_level s = "CAUTION" ↔ 21 ≤ s ∧ s ≤ 50) ∧
       (risk_level s = "SAFE" ↔ s ≤ 20))) ∧
    risk_level 20 = "SAFE" ∧ risk_level 21 = "CAUTION" ∧ risk_level 50 = "CAUTION" ∧
    risk_level 51 = "DANGER" ∧ risk_level 80 = "DANGER" ∧ risk_level 81 = "BLOCKED" := by
  constructor
  · intro s hs
    have hB : ¬ ("BLOCKED" : String) = "DANGER" := by decide
    have hBC : ¬ ("BLOCKED" : String) = "CAUTION" := by decide
    have hBS : ¬ ("BLOCKED" : String) = "SAFE" := by decide
    have hDB : ¬ ("DANGER" : String) = "BLOCKED" := by decide
    have hDC : ¬ ("DANGER" : String) = "CAUTION" := by decide
    have hDS : ¬ ("DANGER" : String) = "SAFE" := by decide
    have hCB : ¬ ("CAUTION" : String) = "BLOCKED" := by decide
    have hCD : ¬ ("CAUTION" : String) = "DANGER" := by decide
    have hCS : ¬ ("CAUTION" : String) = "SAFE" := by decide
    have hSB : ¬ ("SAFE" : String) = "BLOCKED" := by decide
    have hSD : ¬ ("SAFE" : String) = "DANGER" := by decide
    have hSC : ¬ ("SAFE" : String) = "CAUTION" := by decide
    unfold risk_level
    split_ifs with h1 h2 h3
    · exact ⟨⟨fun _ => h1, fun _ => rfl⟩,
        ⟨fun h => absurd h hB, fun h => by omega⟩,
        ⟨fun h => absurd h hBC, fun h => by omega⟩,
        ⟨fun h => absurd h hBS, fun h => by omega⟩⟩
    · exact ⟨⟨fun h => absurd h hDB, fun h => by omega⟩,
        ⟨fun _ => by omega, fun _ => rfl⟩,
        ⟨fun h => absurd h hDC, fun h => by omega⟩,
        ⟨fun h => absurd h hDS, fun h => by omega⟩⟩
    · exact ⟨⟨fun h => absurd h hCB, fun h => by omega⟩,
        ⟨fun h => absurd h hCD, fun h => by omega⟩,
        ⟨fun _ => by omega, fun _ => rfl⟩,
        ⟨fun h => absurd h hCS, fun h => by omega⟩⟩
    · exact ⟨⟨fun h => absurd h hSB, fun h => by omega⟩,
        ⟨fun h => absurd h hSD, fun h => by omega⟩,
        ⟨fun h => absurd h hSC, fun h => by omega⟩,
        ⟨fun _ => by omega, fun _ => rfl⟩⟩
  · exact ⟨by decide, by decide, by decide, by decide, by decide, by decide⟩

/-- C6 witness: the threshold characterization applied at score 60. -/
theorem c6_verdict_witness :
    (60 ≤ 100) ∧ (risk_level 60 = "DANGER" ↔ 51 ≤ 60 ∧ 60 ≤ 80) :=
  ⟨by decide, (c6_verdict_thresholds.1 60 (by decide)).2.1⟩

/-- C7: a whitelisted line is skipped before any rule evaluation; whatever
the matcher says about the rule catalogs, the line contributes no finding of
any severity. -/
theorem c7_whitelist_short_circuit :
    ∀ (rmatch : String → String → Bool) (relPath : String) (acc : List Finding)
      (n : Nat) (line : String),
      is_whitelisted rmatch line = true →
      processLine rmatch relPath acc n line = acc := by
  intro rmatch relPath acc n line h
  simp [processLine, h]

/-- C7 witness: a comment line under the literal-substring matcher is
whitelisted and scanning it yields nothing. -/
theorem c7_whitelist_witness :
    is_whitelisted (fun p l => strContains l p) "# load_dotenv" = true ∧
    processLine (fun p l => strContains l p) "x.py" [] 1 "# load_dotenv" = [] :=
  ⟨by decide,
    c7_whitelist_short_circuit (fun p l => strContains l p) "x.py" [] 1 "# load_dotenv"
      (by decide)⟩

theorem substitution_description_not_in_catalogs :
    (∀ pd ∈ CRITICAL_PATTERNS, pd.2 ≠ "Shell command substitution in non-shell file") ∧
    (∀ pd ∈ WARNING_PATTERNS, pd.2 ≠ "Shell command substitution in non-shell file") := by
  decide

theorem lineFindings_description_source
    (rmatch : String → String → Bool) (relPath : String) (n : Nat) (line : String)
    (ic : Nat) :
    ∀ f ∈ lineFindings rmatch relPath n line ic,
      f.description = "Shell command substitution in non-shell file" →
      isShellFile relPath = false := by
  intro f hf hd
  simp only [lineFindings, List.mem_append] at hf
  rcases hf with ((((hf | hf) | hf) | hf) | hf)
  · have := eq_of_mem_ite_singleton hf
    subst this
    simp at hd
  · by_cases hsh : isShellFile relPath
    · exfalso
      rw [hsh] at hf
      simp only [Bool.not_true] at hf
      split at hf
      · split at hf
        · simp at hf
        · simp at hf
      · simp at hf
    · simpa using hsh
  · exfalso
    rcases List.mem_filterMap.mp hf with ⟨pd, hpd, hg⟩
    split at hg
    · split at hg
      · cases hg
      · cases hg
        exact substitution_description_not_in_catalogs.1 pd hpd hd
    · cases hg
  · exfalso
    split at hf
    · rcases List.mem_filterMap.mp hf with ⟨pd, hpd, hg⟩
      split at hg
      · cases hg
        exact substitution_description_not_in_catalogs.2 pd hpd hd
      · cases hg
    · simp at hf
  · exfalso
    split at hf
    · simp [INFO_PATTERNS] at hf
    · simp at hf

/-- C8 counterexample: the line `$( re.` in a Python file is not whitelisted
and contains the substitution token, yet scanning it produces no finding at
all — the `re.` guard suppresses the substitution check.  (No catalog or
whitelist regular expression of the script matches this line, so the
all-false matcher agrees with the Python matcher on it.) -/
theorem c8_counterexample :
    strContains "$( re." "$(" = true ∧
    is_whitelisted (fun _ _ => false) "$( re." = false ∧
    isShellFile "script.py" = false ∧
    processLine (fun _ _ => false) "script.py" [] 1 "$( re." = [] :=
  ⟨by decide, by decide, by decide, by decide⟩

/-- C8 (amended): on a non-whitelisted line containing `$(`, the scanner
never raises the substitution finding for shell files, and raises the
Critical substitution finding for non-shell files provided the line also
avoids the literal guards `re.`, `r` followed by a quote, `regex`,
`pattern` and `findall`. -/
theorem c8_shell_substitution :
    ∀ (rmatch : String → String → Bool) (relPath : String) (n : Nat) (line : String),
      is_whitelisted rmatch line = false →
      strContains line "$(" = true →
      ((isShellFile relPath = true →
        ∀ f ∈ processLine rmatch relPath [] n line,
          f.description ≠ "Shell command substitution in non-shell file") ∧
       (isShellFile relPath = false →
        strContains line "re." = false →
        strContains line "r\x27" = false →
        strContains line "r\"" = false →
        strContains line "regex" = false →
        strContains line "pattern" = false →
        strContains line "findall" = false →
        { level := "CRITICAL", file := relPath, line := n, pattern := "$(...)",
          description := "Shell command substitution in non-shell file",
          context := takeStr (trimStr line) 100 } ∈ processLine rmatch relPath [] n line)) := by
  intro rmatch relPath n line hwl hsub
  have hpl : processLine rmatch relPath [] n line = lineFindings rmatch relPath n line 0 := by
    simp [processLine, hwl, info_count]
  constructor
  · intro hsh f hf hd
    rw [hpl] at hf
    have := lineFindings_description_source rmatch relPath n line 0 f hf hd
    rw [hsh] at this
    cases this
  · intro hsh hre hrq hrdq hregex hpat hfind
    rw [hpl]
    simp only [lineFindings, List.mem_append]
    refine Or.inl (Or.inl (Or.inl (Or.inr ?_)))
    rw [hsub, hre, hrq, hrdq]
    rw [hregex, hpat, hfind, hsh]
    simp

/-- C8 witness: the line `echo $(pwd)` triggers the substitution check — not
in the shell file `run.sh`, but yes in the Python file `run.py`. -/
theorem c8_shell_substitution_witness :
    (is_whitelisted (fun _ _ => false) "echo $(pwd)" = false ∧
     strContains "echo $(pwd)" "$(" = true ∧
     isShellFile "run.sh" = true ∧
     isShellFile "run.py" = false) ∧
    (∀ f ∈ processLine (fun _ _ => false) "run.sh" [] 1 "echo $(pwd)",
      f.description ≠ "Shell command substitution in non-shell file") ∧
    { level := "CRITICAL", file := "run.py", line := 1, pattern := "$(...)",
      description := "Shell command substitution in non-shell file",
      context := takeStr (trimStr "echo $(pwd)") 100 } ∈
      processLine (fun _ _ => false) "run.py" [] 1 "echo $(pwd)" :=
  ⟨⟨by decide, by decide, by decide, by decide⟩,
   (c8_shell_substitution (fun _ _ => false) "run.sh" 1 "echo $(pwd)"
      (by decide) (by decide)).1 (by decide),
   (c8_shell_substitution (fun _ _ => false) "run.py" 1 "echo $(pwd)"
      (by decide) (by decide)).2
     (by decide) (by decide) (by decide) (by decide) (by decide) (by decide) (by decide)⟩

theorem lineFindings_doc_no_warning
    (rmatch : String → String → Bool) (relPath : String) (n : Nat) (line : String)
    (ic : Nat) (hdoc : isDocFile relPath = true) :
    ∀ f ∈ lineFindings rmatch relPath n line ic, f.level ≠ "WARNING" := by
  intro f hf
  simp only [lineFindings, hdoc, Bool.not_true, Bool.false_and, if_false,
    List.mem_append] at hf
  rcases hf with ((((hf | hf) | hf) | hf) | hf)
  · simp at hf
  · by_cases hsh : isShellFile relPath
    · rw [hsh] at hf
      simp only [Bool.not_true] at hf
      split at hf
      · split at hf
        · simp at hf
        · simp at hf
      · simp at hf
    · rw [Bool.not_eq_true] at hsh
      rw [hsh] at hf
      split at hf
      · split at hf
        · simp only [Bool.not_false, if_true, List.mem_singleton] at hf
          subst hf
          exact (by decide : ("CRITICAL" : String) ≠ "WARNING")
        · simp at hf
      · simp at hf
  · rcases List.mem_filterMap.mp hf with ⟨pd, _, hg⟩
    split at hg
    · split at hg
      · cases hg
      · cases hg
        exact (by decide : ("CRITICAL" : String) ≠ "WARNING")
    · cases hg
  · simp at hf
  · split at hf
    · simp [INFO_PATTERNS] at hf
    · simp at hf

theorem scanLines_no_warning (rmatch : String → String → Bool) (relPath : String)
    (hdoc : isDocFile relPath = true) :
    ∀ (lines : List String) (n : Nat) (acc : List Finding),
      (∀ f ∈ acc, f.level ≠ "WARNING") →
      ∀ f ∈ scanLines rmatch relPath n lines acc, f.level ≠ "WARNING"
  | [], _, _, hacc => hacc
  | line :: rest, n, acc, hacc => by
    simp only [scanLines]
    apply scanLines_no_warning rmatch relPath hdoc rest (n + 1)
    intro f hf
    simp only [processLine] at hf
    split at hf
    · exact hacc f hf
    · rcases List.mem_append.mp hf with h | h
      · exact hacc f h
      · exact lineFindings_doc_no_warning rmatch relPath n line (info_count acc) hdoc f h

/-- C10: scanning a documentation file (path ending in `.md`, `.rst` or
`.txt`) never produces a Warning-severity finding, whatever the matcher says
about the rule catalogs: the whole warning catalog is gated on the file not
being a documentation file, and every other check emits CRITICAL or INFO. -/
theorem c10_doc_files_no_warning :
    ∀ (rmatch : String → String → Bool) (relPath : String) (lines : List String),
      isDocFile relPath = true →
      ∀ f ∈ scan_file rmatch relPath lines, f.level ≠ "WARNING" := by
  intro rmatch relPath lines hdoc
  exact scanLines_no_warning rmatch relPath hdoc lines 1 [] (by simp)

/-- C10 witness: a markdown file scanned with the matcher that fires on
every pattern still yields no WARNING finding. -/
theorem c10_doc_files_witness :
    isDocFile "README.md" = true ∧
    ∀ f ∈ scan_file (fun _ _ => true) "README.md" ["socket.socket data"],
      f.level ≠ "WARNING" :=
  ⟨by decide,
    c10_doc_files_no_warning (fun _ _ => true) "README.md" ["socket.socket data"]
      (by decide)⟩

/-! ## Egress: URL scanning (`egress.py`) -/

/-- Fence test of `in_code_block`: the stripped line starts with three
backticks. -/
def isFenceLine (line : String) : Bool := startsWithStr (trimStr line) "\x60\x60\x60"

/-- `in_code_block(lines, line_idx)` of `egress.py`: among the lines strictly
before the given 0-based index, an odd number are fence lines. -/
def in_code_block (lines : List String) (idx : Nat) : Bool :=
  ((lines.take idx).filter isFenceLine).length % 2 == 1

/-- The `SAFE_DOMAINS` allowlist of `egress.py` (used only through
membership, so the set iteration order is irrelevant). -/
def SAFE_DOMAINS : List String :=
  ["github.com", "raw.githubusercontent.com",
   "docs.anthropic.com", "api.anthropic.com",
   "openclaw.com", "clawhub.ai", "clawhub.com",
   "python.org", "pypi.org",
   "nodejs.org", "npmjs.com",
   "stackoverflow.com", "developer.mozilla.org",
   "wikipedia.org", "example.com"]

/-- The suspicious top-level domains of `classify_url`.  No entry is a
suffix of another, so at most one can match a domain and the set iteration
order is irrelevant. -/
def SUSPICIOUS_TLDS : List String :=
  [".xyz", ".tk", ".ml", ".ga", ".cf", ".gq", ".top", ".buzz"]

/-- Drop everything up to and including the first occurrence of `sep`;
`none` when `sep` does not occur. -/
def dropAfterSub (sep : List Char) : List Char → Option (List Char)
  | [] => if sep == ([] : List Char) then some [] else none
  | c :: rest =>
    if sep == (c :: rest).take sep.length then some ((c :: rest).drop sep.length)
    else dropAfterSub sep rest

/-- Hostname of a URL, modelling `urllib.parse.urlparse(url).hostname` for
the http(s) URLs the scanner extracts: the text after "://" up to the first
"/", "?" or "#", with any userinfo (up to the last "@") and any ":port"
suffix removed, lower-cased.  A URL without "://" gets the empty hostname. -/
def urlHostname (url : String) : String :=
  match dropAfterSub ("://".data) url.data with
  | none => ""
  | some rest =>
    let netloc := rest.takeWhile (fun c => !(c == '/' || c == '?' || c == '#'))
    let host := (netloc.reverse.takeWhile (fun c => !(c == '@'))).reverse
    String.mk ((host.takeWhile (fun c => !(c == ':'))).map lowerChar)

/-- `is_safe_url` of `egress.py`: the hostname equals an allowlisted domain
or is a subdomain of one. -/
def is_safe_url (url : String) : Bool :=
  SAFE_DOMAINS.any (fun safe =>
    urlHostname url == safe || endsWithStr (urlHostname url) ("." ++ safe))

/-- `classify_url` of `egress.py`, with the `EXFIL_PATTERNS` regex loop
abstracted as `exfil` (returning the name of the first matching exfiltration
pattern, if any): exfiltration signatures are Critical, then the safe-domain
allowlist, then the suspicious-TLD heuristic, else Info. -/
def classify_url (exfil : String → Option String) (url : String) : String × String :=
  match exfil url with
  | some name => ("CRITICAL", name)
  | none =>
    if is_safe_url url then ("SAFE", "Known safe domain")
    else
      match SUSPICIOUS_TLDS.find? (fun tld => endsWithStr (urlHostname url) tld) with
      | some tld => ("WARNING", "Suspicious TLD (" ++ tld ++ ")")
      | none => ("INFO", "External endpoint")

/-- The trailing-punctuation trim `match.group(0).rstrip(".,;:)")`. -/
def rstripPunct (s : String) : String :=
  String.mk ((s.data.reverse.dropWhile
    (fun c => c == '.' || c == ',' || c == ';' || c == ':' || c == ')')).reverse)

/-- One URL finding of `scan_file_urls`. -/
structure UFinding where
  file : String
  line : Nat
  url : String
  risk : String
  reason : String
deriving DecidableEq, Repr

/-- The findings of one line of `scan_file_urls`: in a markdown file a line
inside a fenced code block is skipped; otherwise every URL the extractor
finds on the line is trimmed, classified, and reported unless SAFE.
`extract` abstracts the `URL_PATTERN.finditer` regex extraction. -/
def lineUrlFindings (extract : String → List String) (exfil : String → Option String)
    (isMd : Bool) (rel : String) (allLines : List String) (idx : Nat) (line : String) :
    List UFinding :=
  if isMd && in_code_block allLines idx then []
  else
    (extract line).filterMap (fun m =>
      let url := rstripPunct m
      let rr := classify_url exfil url
      if rr.1 == "SAFE" then none
      else some { file := rel, line := idx + 1, url := takeStr url 100,
                  risk := rr.1, reason := rr.2 })

/-- The line loop of `scan_file_urls`, carrying the 0-based index. -/
def scanUrlLines (extract : String → List String) (exfil : String → Option String)
    (isMd : Bool) (rel : String) (allLines : List String) :
    Nat → List String → List UFinding
  | _, [] => []
  | idx, line :: rest =>
    lineUrlFindings extract exfil isMd rel allLines idx line
      ++ scanUrlLines extract exfil isMd rel allLines (idx + 1) rest

/-- `scan_file_urls` of `egress.py` over the split lines of a file. -/
def scan_file_urls (extract : String → List String) (exfil : String → Option String)
    (isMd : Bool) (rel : String) (lines : List String) : List UFinding :=
  scanUrlLines extract exfil isMd rel lines 0 lines

/-! ### Egress theorems -/

theorem lineUrlFindings_line {extract : String → List String}
    {exfil : String → Option String} {isMd : Bool} {rel : String}
    {allLines : List String} {idx : Nat} {line : String} {f : UFinding}
    (hf : f ∈ lineUrlFindings extract exfil isMd rel allLines idx line) :
    f.line = idx + 1 := by
  simp only [lineUrlFindings] at hf
  split at hf
  · simp at hf
  · rcases List.mem_filterMap.mp hf with ⟨m, _, hg⟩
    split at hg
    · cases hg
    · cases hg
      rfl

theorem mem_scanUrlLines {extract : String → List String}
    {exfil : String → Option String} {isMd : Bool} {rel : String}
    {allLines : List String} :
    ∀ {lines : List String} {idx : Nat} {f : UFinding},
      f ∈ scanUrlLines extract exfil isMd rel allLines idx lines →
      ∃ k line', lines.get? k = some line' ∧
        f ∈ lineUrlFindings extract exfil isMd rel allLines (idx + k) line'
  | [], _, _, hf => by simp [scanUrlLines] at hf
  | line :: rest, idx, f, hf => by
    rcases List.mem_append.mp hf with h | h
    · exact ⟨0, line, rfl, h⟩
    · rcases mem_scanUrlLines h with ⟨k, line', hget, hmem⟩
      refine ⟨k + 1, line', hget, ?_⟩
      have : idx + 1 + k = idx + (k + 1) := by omega
      rw [← this]
      exact hmem

theorem scanUrlLines_mem_at {extract : String → List String}
    {exfil : String → Option String} {isMd : Bool} {rel : String}
    {allLines : List String} :
    ∀ (pre : List String) (line : String) (post : List String) (idx : Nat) {f : UFinding},
      f ∈ lineUrlFindings extract exfil isMd rel allLines (idx + pre.length) line →
      f ∈ scanUrlLines extract exfil isMd rel allLines idx (pre ++ line :: post)
  | [], line, post, idx, f, hf => by
    simp only [List.nil_append, scanUrlLines]
    exact List.mem_append.mpr (Or.inl (by simpa using hf))
  | p :: pre', line, post, idx, f, hf => by
    simp only [List.cons_append, scanUrlLines]
    refine List.mem_append.mpr (Or.inr ?_)
    apply scanUrlLines_mem_at pre' line post (idx + 1)
    have : idx + 1 + pre'.length = idx + (p :: pre').length := by
      simp [List.length_cons]
      omega
    rw [this]
    exact hf

/-- C9 counterexample: a safe-domain URL on a line outside any fence of a
markdown file also produces no UrlFinding, because classification SAFE is
dropped before reporting — refuting the claim that the identical URL outside
a fence always produces one.  The extractor and exfiltration matcher are
instantiated with exactly what the real regexes produce on this input: the
URL is extracted from the line and no exfiltration pattern matches it. -/
theorem c9_counterexample :
    in_code_block ["see https://github.com/x"] 0 = false ∧
    scan_file_urls
      (fun l => if l == "see https://github.com/x" then ["https://github.com/x"] else [])
      (fun _ => none) true "README.md" ["see https://github.com/x"] = [] :=
  ⟨by decide, by decide⟩

/-- C9 (amended): in a markdown file, a URL on a line preceded by an odd
number of fence lines produces no UrlFinding; a URL on a line outside any
fence produces one provided its classification is not SAFE (a URL on the
safe-domain allowlist is dropped in both positions). -/
theorem c9_fenced_code_exclusion :
    ∀ (extract : String → List String) (exfil : String → Option String)
      (rel : String) (pre : List String) (line : String) (post : List String),
      (in_code_block (pre ++ line :: post) pre.length = true →
        ∀ f ∈ scan_file_urls extract exfil true rel (pre ++ line :: post),
          f.line ≠ pre.length + 1) ∧
      (in_code_block (pre ++ line :: post) pre.length = false →
        ∀ m ∈ extract line,
          (classify_url exfil (rstripPunct m)).1 ≠ "SAFE" →
          { file := rel, line := pre.length + 1, url := takeStr (rstripPunct m) 100,
            risk := (classify_url exfil (rstripPunct m)).1,
            reason := (classify_url exfil (rstripPunct m)).2 } ∈
            scan_file_urls extract exfil true rel (pre ++ line :: post)) := by
  intro extract exfil rel pre line post
  constructor
  · intro hfence f hf hline
    rcases mem_scanUrlLines hf with ⟨k, line', hget, hmem⟩
    have hl := lineUrlFindings_line hmem
    have hk : k = pre.length := by
      rw [hl] at hline
      omega
    subst hk
    have hgl : (pre ++ line :: post).get? pre.length = some line := by
      rw [List.get?_eq_getElem?, List.getElem?_append_right (le_refl pre.length)]
      simp
    rw [hgl] at hget
    cases hget
    rw [Nat.zero_add] at hmem
    simp only [lineUrlFindings, hfence, Bool.and_true, if_true] at hmem
    simp at hmem
  · intro hfence m hm hne
    apply scanUrlLines_mem_at pre line post 0
    rw [Nat.zero_add]
    simp only [lineUrlFindings, hfence, Bool.and_false, if_false]
    refine List.mem_filterMap.mpr ⟨m, hm, ?_⟩
    simp only [beq_iff_eq]
    rw [if_neg hne]

/-- C9 witness: in a markdown file with a fenced block, the URL inside the
fence is not reported while the identical, non-safe URL outside the fence is
reported at its line. -/
theorem c9_fenced_witness :
    in_code_block
      (["\x60\x60\x60"] ++ "see http://badsite.net/a" ::
        ["\x60\x60\x60", "see http://badsite.net/a"]) 1 = true ∧
    in_code_block
      (["\x60\x60\x60", "see http://badsite.net/a", "\x60\x60\x60"] ++
        "see http://badsite.net/a" :: []) 3 = false ∧
    (∀ f ∈ scan_file_urls
        (fun l => if l == "see http://badsite.net/a" then ["http://badsite.net/a"] else [])
        (fun _ => none) true "doc.md"
        (["\x60\x60\x60"] ++ "see http://badsite.net/a" ::
          ["\x60\x60\x60", "see http://badsite.net/a"]),
      f.line ≠ 2) ∧
    { file := "doc.md", line := 4,
      url := takeStr (rstripPunct "http://badsite.net/a") 100,
      risk := (classify_url (fun _ => none) (rstripPunct "http://badsite.net/a")).1,
      reason := (classify_url (fun _ => none) (rstripPunct "http://badsite.net/a")).2 } ∈
      scan_file_urls
        (fun l => if l == "see http://badsite.net/a" then ["http://badsite.net/a"] else [])
        (fun _ => none) true "doc.md"
        (["\x60\x60\x60", "see http://badsite.net/a", "\x60\x60\x60"] ++
          "see http://badsite.net/a" :: []) :=
  ⟨by decide, by decide,
   (c9_fenced_code_exclusion
      (fun l => if l == "see http://badsite.net/a" then ["http://badsite.net/a"] else [])
      (fun _ => none) "doc.md" ["\x60\x60\x60"] "see http://badsite.net/a"
      ["\x60\x60\x60", "see http://badsite.net/a"]).1 (by decide),
   (c9_fenced_code_exclusion
      (fun l => if l == "see http://badsite.net/a" then ["http://badsite.net/a"] else [])
      (fun _ => none) "doc.md" ["\x60\x60\x60", "see http://badsite.net/a", "\x60\x60\x60"]
      "see http://badsite.net/a" []).2 (by decide) "http://badsite.net/a"
      (by decide) (by decide)⟩
